import Mathlib

/-!
Verification of the theme-analysis pipeline in
`src/mcp_servers/theme_analyzer_mcp.py`.

Texts are modelled as `List Char` (Python strings are sequences of code
points).  Python `str.lower` is modelled per character, faithfully on the
ranges exercised by the analyzer (ASCII, Latin-1 letters and the Slovak
letters of the term alphabet).  The regex word class `\w` (`re.UNICODE`) is
modelled as ASCII alphanumerics, the underscore, and the Latin-1 /
Latin-Extended-A/B letter blocks, which is exact on every character the
development evaluates.  Machine floats of the Python implementation are
modelled as exact rationals; `round(x, 2)` is round-half-to-even, as in
Python.
-/

namespace ThemeAnalyzer

abbrev Term := List Char

/-- The accented characters of the term alphabet in
`re.findall(r'\b[a-záäčďéíľňóôŕšťúýž]+\b', text)`. -/
def accentChars : List Char :=
  ['á', 'ä', 'č', 'ď', 'é', 'í', 'ľ', 'ň', 'ó', 'ô', 'ŕ', 'š', 'ť', 'ú', 'ý', 'ž']

/-- Membership in the character class `[a-záäčďéíľňóôŕšťúýž]`. -/
def isTokenChar (c : Char) : Bool :=
  ('a' ≤ c && c ≤ 'z') || accentChars.contains c

/-- Python's `\w` (word character) with `re.UNICODE`: ASCII alphanumerics,
underscore, and (restricted to the letter ranges this development uses)
the Latin-1 and Latin Extended-A/B letters. -/
def isWordB (c : Char) : Bool :=
  c.isAlphanum || c == '_' ||
    (0xC0 ≤ c.toNat && c.toNat ≤ 0x24F && c.toNat != 0xD7 && c.toNat != 0xF7)

/-- Python `str.lower`, per character, on the ranges the analyzer uses:
ASCII `A-Z`, Latin-1 uppercase letters, and the uppercase forms of the
accented Slovak letters in Latin Extended-A. -/
def toLowerChar (c : Char) : Char :=
  if 'A' ≤ c && c ≤ 'Z' then Char.ofNat (c.toNat + 32)
  else if 0xC0 ≤ c.toNat && c.toNat ≤ 0xDE && c.toNat != 0xD7 then
    Char.ofNat (c.toNat + 32)
  else if c.toNat ∈ [0x10C, 0x10E, 0x13D, 0x147, 0x154, 0x160, 0x164, 0x17D] then
    Char.ofNat (c.toNat + 1)
  else c

/-- Python `text.lower()`. -/
def lowerL (l : List Char) : List Char := l.map toLowerChar

/-- The stop-word set of `extract_terms`. -/
def stopWordsS : List String :=
  ["the", "a", "an", "and", "or", "but", "in", "on", "at", "to", "for",
   "of", "with", "by", "from", "as", "is", "was", "are", "were", "been",
   "be", "have", "has", "had", "do", "does", "did", "will", "would",
   "should", "could", "may", "might", "must", "can", "this", "that",
   "these", "those", "i", "you", "he", "she", "it", "we", "they",
   "what", "which", "who", "when", "where", "why", "how"]

def stopWordsL : List Term := stopWordsS.map String.toList

/-- Left word-boundary test used when a candidate match starts after the
character `prev` (`none` at the beginning of the text): `\b` holds there
iff the preceding character is not a word character. -/
def leftBd (prev : Option Char) : Bool :=
  match prev with
  | none => true
  | some p => !isWordB p

/-- Right word-boundary test at the start of the remaining text. -/
def rightBd (rest : List Char) : Bool :=
  match rest with
  | [] => true
  | d :: _ => !isWordB d

/-- Fueled version of the regex scan below; the fuel only serves to make
the recursion structural, and `l.length` fuel is always enough. -/
def scanRunsF (fuel : Nat) (prev : Option Char) (l : List Char) : List (List Char) :=
  match fuel, l with
  | _, [] => []
  | 0, _ :: _ => []
  | fuel + 1, c :: rest =>
    if isTokenChar c then
      (if leftBd prev && rightBd (rest.dropWhile isTokenChar) then
        [c :: rest.takeWhile isTokenChar]
      else []) ++ scanRunsF fuel (some c) (rest.dropWhile isTokenChar)
    else scanRunsF fuel (some c) rest

/-- The matches of `re.findall(r'\b[a-záäčďéíľňóôŕšťúýž]+\b', l)`,
scanned left to right: a maximal run of alphabet characters is a match
iff both of its neighbours (when present) fail to be word characters
(inside a run there is no word boundary, so a run either matches whole
or not at all).  `prev` is the character immediately before the unscanned
suffix. -/
def scanRuns (prev : Option Char) (l : List Char) : List (List Char) :=
  scanRunsF l.length prev l

/-- The filter applied to candidate words in `extract_terms`:
`w not in stop_words and len(w) >= 3`. -/
def keepTerm (w : Term) : Bool :=
  !(stopWordsL.contains w) && decide (3 ≤ w.length)

/-- The source function `extract_terms(text)`. -/
def extractTerms (text : List Char) : List Term :=
  (scanRuns none (lowerL text)).filter keepTerm

/-- Fueled version of `runsNB`. -/
def runsNBF (fuel : Nat) (l : List Char) : List (List Char) :=
  match fuel, l with
  | _, [] => []
  | 0, _ :: _ => []
  | fuel + 1, c :: rest =>
    if isTokenChar c then
      (c :: rest.takeWhile isTokenChar) :: runsNBF fuel (rest.dropWhile isTokenChar)
    else runsNBF fuel rest

/-- The maximal runs of alphabet characters, with no word-boundary
requirement.  (A second definition following the specification's words,
for comparison with `extractTerms`.) -/
def runsNB (l : List Char) : List (List Char) :=
  runsNBF l.length l

/-- The term extractor the claim describes: every maximal run of alphabet
letters of length at least 3 that is not a stop word, with no
word-boundary requirement.  (Modelled from the specification's words.) -/
def extractTermsClaimed (text : List Char) : List Term :=
  (runsNB (lowerL text)).filter keepTerm

/-- Matching `l[p : p + t.length] == t`: the pattern `t` occurs at position `p`. -/
def matchesAt (l t : List Char) (p : Nat) : Bool :=
  decide ((l.drop p).take t.length = t)

/-- The regex `\b` at position `p` of `l`: the previous and the next
character differ in wordness (a missing character counts as non-word). -/
def boundaryAt (l : List Char) (p : Nat) : Bool :=
  let prevW := match p with
    | 0 => false
    | q + 1 => match l.drop q with
      | [] => false
      | c :: _ => isWordB c
  let currW := match l.drop p with
    | [] => false
    | c :: _ => isWordB c
  prevW != currW

/-- A whole-word occurrence of `t` at position `p`:
the match of `\b t \b` for a literal `t`. -/
def wholeWordAt (l t : List Char) (p : Nat) : Bool :=
  boundaryAt l p && matchesAt l t p && boundaryAt l (p + t.length)

/-- Computes `[m.start() for m in re.finditer(r'\b' + re.escape(t) + r'\b', l)]`:
the left-to-right, non-overlapping scan records a match whenever the scan
position has passed the end of the previous match. -/
def positions (l t : List Char) : List Nat :=
  ((List.range (l.length + 1)).foldl
    (fun (acc : List Nat × Nat) p =>
      if acc.2 ≤ p && wholeWordAt l t p then
        (acc.1 ++ [p], p + max t.length 1)
      else acc)
    ([], 0)).1

/-- Python `s.strip()` (whitespace from both ends). -/
def stripL (l : List Char) : List Char :=
  ((l.dropWhile Char.isWhitespace).reverse.dropWhile Char.isWhitespace).reverse

/-- The source function `extract_contexts(text, term, window=50)`: scan the lowercased text
for plain (not whole-word) occurrences of the lowercased term, take the
surrounding `[pos-50 : pos+len(term)+50]` slice of the original text,
strip it, and keep the first three snippets. -/
def extractContexts (text term : List Char) : List (List Char) :=
  let tl := lowerL text
  let tml := lowerL term
  ((((List.range (tl.length + 1)).foldl
    (fun (acc : List (List Char) × Nat) p =>
      if acc.2 ≤ p && matchesAt tl tml p then
        (acc.1 ++ [stripL ((text.take (min text.length (p + term.length + 50))).drop (p - 50))],
         p + max term.length 1)
      else acc)
    ([], 0)).1)).take 3

/-- The slice `text_lower[max(0, pos-100) : min(len(text), pos+100)]`
examined by `find_cooccurrences` around an occurrence at `pos`. -/
def coocWindow (l : List Char) (pos : Nat) : List Char :=
  (l.take (min l.length (pos + 100))).drop (pos - 100)

/-- Python's `t in l` substring test. -/
def subMatch (t l : List Char) : Bool :=
  (List.range (l.length + 1)).any (fun p => matchesAt l t p)

/-- The nested mapping `defaultdict(Counter)` used for co-occurrences:
an association list in insertion order, one inner counter (again an
association list in insertion order) per term. -/
abbrev Inner := List (Term × Nat)

abbrev Cooc := List (Term × Inner)

/-- Lookup in a counter, `0` when absent. -/
def lookupCount (tbl : Inner) (t : Term) : Nat :=
  match tbl with
  | [] => 0
  | (u, k) :: rest => if u = t then k else lookupCount rest t

/-- One increment `counter[b] += 1`: a fresh key is appended at the end, matching the
insertion order of a Python `Counter`. -/
def bumpInner (tbl : Inner) (b : Term) : Inner :=
  match tbl with
  | [] => [(b, 1)]
  | (u, k) :: rest => if u = b then (u, k + 1) :: rest else (u, k) :: bumpInner rest b

/-- One increment `cooccurrences[a][b] += 1` on the nested mapping. -/
def bump1 (g : Cooc) (a b : Term) : Cooc :=
  match g with
  | [] => [(a, [(b, 1)])]
  | (u, l) :: rest => if u = a then (u, bumpInner l b) :: rest else (u, l) :: bump1 rest a b

/-- The inner counter of `a` (empty when absent, as with
`defaultdict`/`not in` tests in the source). -/
def neighbors (g : Cooc) (a : Term) : Inner :=
  match g with
  | [] => []
  | (u, l) :: rest => if u = a then l else neighbors rest a

/-- Reads `cooccurrences[a][b]`, `0` when absent. -/
def lookupC (g : Cooc) (a b : Term) : Nat :=
  lookupCount (neighbors g a) b

/-- The inner loop of `find_cooccurrences`: for one occurrence of `t` at
`pos`, each later term `s` present in the window increments both
`g[t][s]` and `g[s][t]`. -/
def stepCooc (tl : List Char) (t : Term) (pos : Nat) (g : Cooc) (s : Term) : Cooc :=
  if subMatch s (coocWindow tl pos) then bump1 (bump1 g t s) s t else g

/-- All window checks for one occurrence of `t`. -/
def posStep (tl : List Char) (t : Term) (rest : List Term) (g : Cooc) (pos : Nat) : Cooc :=
  rest.foldl (stepCooc tl t pos) g

/-- All occurrences of one term `t`, checked against the later terms. -/
def termStep (tl : List Char) (t : Term) (rest : List Term) (g : Cooc) : Cooc :=
  (positions tl t).foldl (posStep tl t rest) g

/-- The loop of `find_cooccurrences` over `enumerate(terms)`; the inner
loop ranges over `terms[i+1:]`. -/
def findCoocAux (tl : List Char) (terms : List Term) (g : Cooc) : Cooc :=
  match terms with
  | [] => g
  | t :: rest => findCoocAux tl rest (termStep tl t rest g)

/-- The source function `find_cooccurrences(text, terms, cooccurrences, window=100)`. -/
def findCooccurrences (text : List Char) (terms : List Term) (g : Cooc) : Cooc :=
  findCoocAux (lowerL text) terms g

def emptyCooc : Cooc := []

/-- Frequency tables: `Counter` as an association list in insertion
order. -/
abbrev FreqTable := List (Term × Nat)

/-- One update `counter[t] += k` (`addCount tbl t 1` is one `term_frequencies[term] += 1`). -/
def addCount (tbl : FreqTable) (t : Term) (k : Nat) : FreqTable :=
  match tbl with
  | [] => [(t, k)]
  | (u, c) :: rest => if u = t then (u, c + k) :: rest else (u, c) :: addCount rest t k

/-- The frequency-counting loop of `analyze_themes`. -/
def countOcc (terms : List Term) : FreqTable :=
  terms.foldl (fun tbl t => addCount tbl t 1) []

/-- The keys of a growing `dict`, in first-insertion order. -/
def firstOccs (terms : List Term) : List Term :=
  terms.foldl (fun acc t => if t ∈ acc then acc else acc ++ [t]) []

/-- Stable insertion (descending by `key`): the new element goes in front
of the first element whose key is not larger.  Elements inserted later
(which originally came earlier) therefore precede equal-keyed ones. -/
def insertKeyDesc {α β : Type} [LinearOrder β] (key : α → β) (x : α) : List α → List α
  | [] => [x]
  | y :: ys => if key y ≤ key x then x :: y :: ys else y :: insertKeyDesc key x ys

/-- The stable descending sort by a key: the model of Python's stable
`sorted(..., key=key, reverse=True)` (and of `list.sort(key, reverse=True)`). -/
def sortKeyDesc {α β : Type} [LinearOrder β] (key : α → β) : List α → List α
  | [] => []
  | x :: xs => insertKeyDesc key x (sortKeyDesc key xs)

/-- Python `Counter.most_common(n)`: the first `n` items of the stable
descending sort of the items by count. -/
def mostCommon (tbl : List (Term × Nat)) (n : Nat) : List (Term × Nat) :=
  (sortKeyDesc (fun p => p.2) tbl).take n

/-- The value `round(100 * (f * (1 + 1/(1+f))))` computed exactly in integer
arithmetic: the fraction is `100*f*(f+2) / (f+1)`, rounded half to even
as Python's `round` does. -/
def rhe100 (f : Nat) : Nat :=
  let num := 100 * f * (f + 2)
  let den := f + 1
  let q := num / den
  let r := num % den
  if 2 * r < den then q
  else if den < 2 * r then q + 1
  else if q % 2 = 0 then q else q + 1

/-- The stored importance score `round(frequency * (1 + 1.0/(1.0+frequency)), 2)`
as an exact rational (an integer number of hundredths). -/
def importanceR (f : Nat) : ℚ := mkRat (rhe100 f) 100

/-- The importance formula of the specification, written with field
operations: `frequency * (1 + 1/(1+frequency))`. -/
def importanceSpec (f : Nat) : ℚ := (f : ℚ) * (1 + 1 / (1 + (f : ℚ)))

/-- Round half to even (Python's `round`) on the rationals. -/
def roundHalfEven (q : ℚ) : ℤ :=
  if q - ⌊q⌋ < 1 / 2 then ⌊q⌋
  else if 1 / 2 < q - ⌊q⌋ then ⌊q⌋ + 1
  else if ⌊q⌋ % 2 = 0 then ⌊q⌋ else ⌊q⌋ + 1

/-- Python `round(q, 2)` on the rationals. -/
def roundTo2 (q : ℚ) : ℚ := (roundHalfEven (q * 100) : ℚ) / 100

structure ThemeRecord where
  term : Term
  frequency : Nat
  importance : ℚ
  related_terms : Inner
  sample_contexts : List (List Char)
deriving DecidableEq

structure ClusterRecord where
  central_term : Term
  related_terms : List Term
  cohesion : Nat
  total_mentions : Nat
deriving DecidableEq

structure GapReport where
  count : Nat
  examples : List Term
deriving DecidableEq

structure CorpusStats where
  unique_terms : Nat
  total_terms : Nat
deriving DecidableEq

structure Insights where
  source_file : List Char
  dominant_themes : List ThemeRecord
  emerging_themes : List ThemeRecord
  concept_clusters : List ClusterRecord
  potential_gaps : GapReport
  corpus_statistics : CorpusStats
deriving DecidableEq

/-- One entry of the `dominant` list of `generate_insights` (`related` is
`cooccurrences[term].most_common(5)` when the term has co-occurrences and
`[]` otherwise, which coincides with `most_common` of the empty counter). -/
def mkThemeRecord (cooc : Cooc) (ctx : Term → List (List Char)) (p : Term × Nat) :
    ThemeRecord :=
  { term := p.1
    frequency := p.2
    importance := importanceR p.2
    related_terms := mostCommon (neighbors cooc p.1) 5
    sample_contexts := (ctx p.1).take 3 }

/-- The `dominant` list: top 30 terms by frequency, then the stable sort
descending by the stored importance. -/
def dominantList (freqs : FreqTable) (ctx : Term → List (List Char)) (cooc : Cooc) :
    List ThemeRecord :=
  sortKeyDesc (fun r => r.importance) ((mostCommon freqs 30).map (mkThemeRecord cooc ctx))

/-- The list `[t for t in dominant if 3 <= t['frequency'] <= 10][:5]`. -/
def emergingList (dom : List ThemeRecord) : List ThemeRecord :=
  (dom.filter (fun r => decide (3 ≤ r.frequency) && decide (r.frequency ≤ 10))).take 5

/-- One iteration of the cluster loop: skip a theme whose term was
already used as a central term; otherwise, when it has related terms,
emit a cluster built from its top 3 neighbours and mark the term used. -/
def clusterStep (freqs : FreqTable) (st : List ClusterRecord × List Term)
    (th : ThemeRecord) : List ClusterRecord × List Term :=
  if th.term ∈ st.2 then st
  else if th.related_terms ≠ [] then
    let clusterTerms := (th.related_terms.take 3).map Prod.fst
    if 0 < clusterTerms.length then
      (st.1 ++ [{ central_term := th.term
                  related_terms := clusterTerms
                  cohesion := clusterTerms.length + 1
                  total_mentions :=
                    lookupCount freqs th.term +
                      (clusterTerms.map (lookupCount freqs)).sum }],
       th.term :: st.2)
    else st
  else st

/-- The cluster loop over `dominant[:20]`. -/
def buildClusters (dom : List ThemeRecord) (freqs : FreqTable) : List ClusterRecord :=
  ((dom.take 20).foldl (clusterStep freqs) ([], [])).1

/-- The source function `generate_insights(term_frequencies, term_contexts, cooccurrences,
source_filename)`. -/
def generateInsights (freqs : FreqTable) (ctx : Term → List (List Char))
    (cooc : Cooc) (fname : List Char) : Insights :=
  let dom := dominantList freqs ctx cooc
  let singleMentions := (freqs.filter (fun p => p.2 == 1)).map Prod.fst
  { source_file := fname
    dominant_themes := dom.take 5
    emerging_themes := emergingList dom
    concept_clusters := (buildClusters dom freqs).take 5
    potential_gaps := { count := singleMentions.length
                        examples := singleMentions.take 10 }
    corpus_statistics := { unique_terms := freqs.length
                           total_terms := (freqs.map Prod.snd).sum } }

/-- The first position where `pat` occurs in `l`, if any. -/
def findSubPos (l pat : List Char) : Option Nat :=
  (List.range (l.length + 1)).find? (fun p => matchesAt l pat p)

def metaMarker : List Char := "## Extracted Text".toList

/-- The source function `skip_metadata(content)`: everything after the first occurrence of
the marker, or the whole content when the marker is absent. -/
def skipMetadata (l : List Char) : List Char :=
  match findSubPos l metaMarker with
  | none => l
  | some p => l.drop (p + metaMarker.length)

/-- The `significant_terms` of `analyze_themes`: the keys of
`term_frequencies.most_common(50)`. -/
def significantOf (freqs : FreqTable) : List Term :=
  (mostCommon freqs 50).map Prod.fst

/-- The analysis core of `analyze_themes` on file content already read:
skip metadata, extract terms, count, sample contexts for the significant
terms, build co-occurrences, and generate the insights (the pure part of
the tool; file I/O succeeds or fails outside this function). -/
def analyzeText (content fname : List Char) : Insights :=
  let body := skipMetadata content
  let terms := extractTerms body
  let freqs := countOcc terms
  let significant := significantOf freqs
  let ctx : Term → List (List Char) :=
    fun t => if t ∈ significant then extractContexts body t else []
  let cooc := findCooccurrences body significant emptyCooc
  generateInsights freqs ctx cooc fname

/-- The accumulation loop of `analyze_themes_batch`: for every document,
add each dominant theme's frequency to the corpus-wide counter. -/
def combinedCorpusFreqs (docs : List (List Char × List Char)) : FreqTable :=
  docs.foldl
    (fun acc d =>
      ((analyzeText d.2 d.1).dominant_themes).foldl
        (fun acc th => addCount acc th.term th.frequency) acc)
    []

/-- The field `top_themes_across_corpus`: `all_term_frequencies.most_common(20)`. -/
def topThemesAcrossCorpus (docs : List (List Char × List Char)) : List (Term × Nat) :=
  mostCommon (combinedCorpusFreqs docs) 20

/-- An abridged rendering of `generate_markdown_report`: the report embeds
the wall-clock timestamp (`datetime.now()`), the corpus statistics and the
dominant terms.  Only its dependence on the clock matters to the claims;
the full f-string layout is not reproduced. -/
def renderReport (ins : Insights) (now : List Char) : List Char :=
  "# Theme Analysis Report\n\n**Generated:** ".toList ++ now ++
  "\n\n## Corpus Statistics\n\n- **Unique Terms:** ".toList ++
  (toString ins.corpus_statistics.unique_terms).toList ++
  "\n- **Total Term Occurrences:** ".toList ++
  (toString ins.corpus_statistics.total_terms).toList ++
  "\n\n## Dominant Themes\n\n".toList ++
  (ins.dominant_themes.map (fun th => th.term ++ ['\n'])).flatten ++
  "\n## Potential Research Gaps\n\n".toList ++
  (ins.potential_gaps.examples.map (fun t => '-' :: ' ' :: t ++ ['\n'])).flatten

/-- One full run of `analyze_themes` on given file content: the ambient
wall clock, read by `datetime.now()` inside the report writer, is passed
in explicitly; the pair is (JSON insights payload, markdown report). -/
def runPipeline (content fname now : List Char) : Insights × List Char :=
  let ins := analyzeText content fname
  (ins, renderReport ins now)

/-- The contribution of one increment event for the ordered pair `(t, s)`
to the count at `(a, b)`: the event raises both `g[t][s]` and `g[s][t]`
by one. -/
def ind2 (t s a b : Term) : Nat :=
  (if a = t ∧ b = s then 1 else 0) + (if a = s ∧ b = t then 1 else 0)

/-- Event count of the amended claim, phrased exactly as the loop is
described: walking the significant terms in order, for every whole-word
occurrence `pos` of the current term `t` and every **later** listed term
`s` whose text occurs in the window around `pos`, one increment of both
directions is recorded; repeated occurrences accumulate. -/
def coocSpecAux (tl : List Char) (terms : List Term) (a b : Term) : Nat :=
  match terms with
  | [] => 0
  | t :: rest =>
    ((positions tl t).map (fun pos =>
      (rest.map (fun s =>
        if subMatch s (coocWindow tl pos) then ind2 t s a b else 0)).sum)).sum
    + coocSpecAux tl rest a b

/-- Event count of the amended claim on the original text. -/
def coocSpecLater (text : List Char) (terms : List Term) (a b : Term) : Nat :=
  coocSpecAux (lowerL text) terms a b

/-- Event count of the claim as written (modelled from the claim's
words): for every whole-word occurrence of **each** significant term and
every **other** significant term found in its window, both directions are
incremented. -/
def coocClaimCount (text : List Char) (terms : List Term) (a b : Term) : Nat :=
  (terms.map (fun t =>
    ((positions (lowerL text) t).map (fun pos =>
      (terms.map (fun s =>
        if s ≠ t ∧ subMatch s (coocWindow (lowerL text) pos) = true then
          ind2 t s a b
        else 0)).sum)).sum)).sum

/-- The record-level properties of a well-formed cluster built from the
frequency table `freqs`. -/
def ClusterOK (freqs : FreqTable) (c : ClusterRecord) : Prop :=
  c.related_terms.length ≤ 3 ∧
  c.cohesion = c.related_terms.length + 1 ∧
  c.total_mentions =
    lookupCount freqs c.central_term + (c.related_terms.map (lookupCount freqs)).sum

/-- The loop invariant of the cluster builder. -/
def ClusterInv (freqs : FreqTable) (st : List ClusterRecord × List Term) : Prop :=
  (st.1.map ClusterRecord.central_term).Nodup ∧
  (∀ c ∈ st.1, c.central_term ∈ st.2) ∧
  (∀ c ∈ st.1, ClusterOK freqs c)

/-!  ## Lemmas about the stable descending sort -/

theorem mem_insertKeyDesc {α β : Type} [LinearOrder β] (key : α → β) (x a : α)
    (l : List α) : a ∈ insertKeyDesc key x l ↔ a = x ∨ a ∈ l := by
  induction l with
  | nil => simp [insertKeyDesc]
  | cons y ys ih =>
    by_cases h : key y ≤ key x
    · simp [insertKeyDesc, h]
    · simp only [insertKeyDesc, if_neg h, List.mem_cons, ih]
      tauto

theorem mem_sortKeyDesc {α β : Type} [LinearOrder β] (key : α → β) (a : α)
    (l : List α) : a ∈ sortKeyDesc key l ↔ a ∈ l := by
  induction l with
  | nil => simp [sortKeyDesc]
  | cons x xs ih => simp [sortKeyDesc, mem_insertKeyDesc, ih]

theorem pairwise_insertKeyDesc {α β : Type} [LinearOrder β] (key : α → β) (x : α)
    {l : List α} (hl : l.Pairwise (fun u v => key v ≤ key u)) :
    (insertKeyDesc key x l).Pairwise (fun u v => key v ≤ key u) := by
  induction l with
  | nil => simp [insertKeyDesc]
  | cons y ys ih =>
    rcases List.pairwise_cons.mp hl with ⟨hy, hys⟩
    by_cases h : key y ≤ key x
    · rw [insertKeyDesc, if_pos h]
      refine List.pairwise_cons.mpr ⟨?_, hl⟩
      intro z hz
      rcases List.mem_cons.mp hz with rfl | hz'
      · exact h
      · exact le_trans (hy z hz') h
    · rw [insertKeyDesc, if_neg h]
      refine List.pairwise_cons.mpr ⟨?_, ih hys⟩
      intro z hz
      rcases (mem_insertKeyDesc key x z ys).mp hz with rfl | hz'
      · exact le_of_lt (lt_of_not_le h)
      · exact hy z hz'

theorem pairwise_sortKeyDesc {α β : Type} [LinearOrder β] (key : α → β)
    (l : List α) : (sortKeyDesc key l).Pairwise (fun u v => key v ≤ key u) := by
  induction l with
  | nil => simp [sortKeyDesc]
  | cons x xs ih => exact pairwise_insertKeyDesc key x ih

theorem filter_insertKeyDesc_of_eq {α β : Type} [LinearOrder β] (key : α → β)
    (x : α) (c : β) (l : List α) (hc : key x = c) :
    (insertKeyDesc key x l).filter (fun a => decide (key a = c)) =
      x :: l.filter (fun a => decide (key a = c)) := by
  induction l with
  | nil =>
    rw [insertKeyDesc, List.filter_cons, if_pos (by simp [hc])]
  | cons y ys ih =>
    by_cases h : key y ≤ key x
    · rw [insertKeyDesc, if_pos h, List.filter_cons, if_pos (by simp [hc])]
    · have hyc : ¬(key y = c) := fun e => h (by rw [e, ← hc])
      rw [insertKeyDesc, if_neg h, List.filter_cons, if_neg (by simp [hyc]), ih,
        List.filter_cons, if_neg (by simp [hyc])]

theorem filter_insertKeyDesc_of_ne {α β : Type} [LinearOrder β] (key : α → β)
    (x : α) (c : β) (l : List α) (hc : ¬(key x = c)) :
    (insertKeyDesc key x l).filter (fun a => decide (key a = c)) =
      l.filter (fun a => decide (key a = c)) := by
  induction l with
  | nil =>
    rw [insertKeyDesc, List.filter_cons, if_neg (by simp [hc]), List.filter_nil]
  | cons y ys ih =>
    by_cases h : key y ≤ key x
    · rw [insertKeyDesc, if_pos h, List.filter_cons, if_neg (by simp [hc])]
    · rw [insertKeyDesc, if_neg h, List.filter_cons, ih, List.filter_cons]

theorem filter_sortKeyDesc {α β : Type} [LinearOrder β] (key : α → β) (c : β)
    (l : List α) :
    (sortKeyDesc key l).filter (fun a => decide (key a = c)) =
      l.filter (fun a => decide (key a = c)) := by
  induction l with
  | nil => simp [sortKeyDesc]
  | cons x xs ih =>
    by_cases hc : key x = c
    · rw [sortKeyDesc, filter_insertKeyDesc_of_eq key x c _ hc, ih,
        List.filter_cons, if_pos (by simp [hc])]
    · rw [sortKeyDesc, filter_insertKeyDesc_of_ne key x c _ hc, ih,
        List.filter_cons, if_neg (by simp [hc])]

/-!  ## Lemmas about counters -/

theorem lookupCount_addCount (tbl : FreqTable) (t u : Term) (k : Nat) :
    lookupCount (addCount tbl t k) u =
      lookupCount tbl u + if u = t then k else 0 := by
  induction tbl with
  | nil =>
    simp only [addCount, lookupCount]
    by_cases h : u = t
    · subst h; simp
    · rw [if_neg (Ne.symm h), if_neg h]
  | cons p rest ih =>
    obtain ⟨v, c⟩ := p
    by_cases hv : v = t
    · subst hv
      simp only [addCount, if_pos rfl, lookupCount]
      by_cases hu : v = u
      · subst hu; simp
      · rw [if_neg hu, if_neg hu, if_neg (Ne.symm hu)]
        simp
    · simp only [addCount, if_neg hv, lookupCount]
      by_cases hu : v = u
      · subst hu
        rw [if_pos rfl, if_pos rfl, if_neg hv]
        simp
      · rw [if_neg hu, if_neg hu, ih]

theorem keys_addCount (tbl : FreqTable) (t : Term) (k : Nat) :
    (addCount tbl t k).map Prod.fst =
      if t ∈ tbl.map Prod.fst then tbl.map Prod.fst
      else tbl.map Prod.fst ++ [t] := by
  induction tbl with
  | nil => simp [addCount]
  | cons p rest ih =>
    obtain ⟨v, c⟩ := p
    by_cases hv : v = t
    · subst hv
      simp [addCount]
    · simp only [addCount, if_neg hv, List.map_cons, ih]
      by_cases hm : t ∈ rest.map Prod.fst
      · rw [if_pos hm, if_pos (List.mem_cons.mpr (Or.inr hm))]
      · rw [if_neg hm, if_neg (by
          intro hcon
          rcases List.mem_cons.mp hcon with he | hm2
          · exact hv he.symm
          · exact hm hm2)]
        simp

theorem nodup_keys_addCount (tbl : FreqTable) (t : Term) (k : Nat)
    (h : (tbl.map Prod.fst).Nodup) :
    ((addCount tbl t k).map Prod.fst).Nodup := by
  rw [keys_addCount]
  by_cases hm : t ∈ tbl.map Prod.fst
  · simpa [hm] using h
  · rw [if_neg hm]
    refine List.Nodup.append h (List.nodup_singleton t) ?_
    intro a ha hb
    rw [List.mem_singleton] at hb
    exact hm (hb ▸ ha)

theorem lookupCount_of_mem (tbl : FreqTable) (t : Term) (k : Nat)
    (hnd : (tbl.map Prod.fst).Nodup) (hmem : (t, k) ∈ tbl) :
    lookupCount tbl t = k := by
  induction tbl with
  | nil => simp at hmem
  | cons p rest ih =>
    obtain ⟨v, c⟩ := p
    simp only [List.map_cons, List.nodup_cons] at hnd
    rcases List.mem_cons.mp hmem with he | hm
    · injection he with h1 h2
      subst h1
      subst h2
      simp [lookupCount]
    · have hv : ¬ v = t := by
        intro e
        subst e
        exact hnd.1 (List.mem_map.mpr ⟨(v, k), hm, rfl⟩)
      rw [lookupCount, if_neg hv]
      exact ih hnd.2 hm

theorem mem_firstOccs_foldl (l : List Term) :
    ∀ (acc : List Term) (t : Term),
      t ∈ l.foldl (fun acc u => if u ∈ acc then acc else acc ++ [u]) acc ↔
        t ∈ acc ∨ t ∈ l := by
  induction l with
  | nil => simp
  | cons u us ih =>
    intro acc t
    simp only [List.foldl_cons]
    rw [ih]
    by_cases hu : u ∈ acc
    · rw [if_pos hu]
      constructor
      · rintro (h | h)
        · exact Or.inl h
        · exact Or.inr (List.mem_cons.mpr (Or.inr h))
      · rintro (h | h)
        · exact Or.inl h
        · rcases List.mem_cons.mp h with rfl | h'
          · exact Or.inl hu
          · exact Or.inr h'
    · rw [if_neg hu]
      simp only [List.mem_append, List.mem_singleton, List.mem_cons]
      tauto

theorem nodup_firstOccs_foldl (l : List Term) :
    ∀ (acc : List Term), acc.Nodup →
      (l.foldl (fun acc u => if u ∈ acc then acc else acc ++ [u]) acc).Nodup := by
  induction l with
  | nil => intro acc h; simpa using h
  | cons u us ih =>
    intro acc h
    simp only [List.foldl_cons]
    by_cases hu : u ∈ acc
    · rw [if_pos hu]; exact ih acc h
    · rw [if_neg hu]
      refine ih _ (List.Nodup.append h (List.nodup_singleton u) ?_)
      intro a ha hb
      rw [List.mem_singleton] at hb
      exact hu (hb ▸ ha)

theorem mem_firstOccs (terms : List Term) (t : Term) :
    t ∈ firstOccs terms ↔ t ∈ terms := by
  rw [firstOccs, mem_firstOccs_foldl]
  simp

theorem nodup_firstOccs (terms : List Term) : (firstOccs terms).Nodup :=
  nodup_firstOccs_foldl terms [] List.nodup_nil

theorem firstOccs_concat (s : List Term) (t : Term) :
    firstOccs (s ++ [t]) =
      if t ∈ firstOccs s then firstOccs s else firstOccs s ++ [t] := by
  rw [firstOccs, List.foldl_append, List.foldl_cons, List.foldl_nil]
  rfl

theorem addCount_of_not_mem (tbl : FreqTable) (t : Term) (k : Nat)
    (h : t ∉ tbl.map Prod.fst) : addCount tbl t k = tbl ++ [(t, k)] := by
  induction tbl with
  | nil => simp [addCount]
  | cons p rest ih =>
    obtain ⟨v, c⟩ := p
    simp only [List.map_cons, List.mem_cons] at h
    push_neg at h
    rw [addCount, if_neg (fun e => h.1 e.symm), List.cons_append, ih h.2]

theorem addCount_map_of_mem (L : List Term) (g : Term → Nat) (t : Term) (k : Nat)
    (hnd : L.Nodup) (ht : t ∈ L) :
    addCount (L.map (fun u => (u, g u))) t k =
      L.map (fun u => (u, if u = t then g u + k else g u)) := by
  induction L with
  | nil => simp at ht
  | cons u us ih =>
    simp only [List.nodup_cons] at hnd
    by_cases hu : u = t
    · subst hu
      rw [List.map_cons, List.map_cons, addCount, if_pos rfl, if_pos rfl]
      congr 1
      apply List.map_congr_left
      intro v hv
      have hvu : ¬ v = u := fun e => hnd.1 (e ▸ hv)
      rw [if_neg hvu]
    · rcases List.mem_cons.mp ht with he | hm
      · exact absurd he.symm hu
      · simp only [List.map_cons, addCount, if_neg hu, ih hnd.2 hm, if_neg hu]

theorem countOcc_concat (s : List Term) (t : Term) :
    countOcc (s ++ [t]) = addCount (countOcc s) t 1 := by
  rw [countOcc, List.foldl_append, List.foldl_cons, List.foldl_nil]
  rfl

/-- The frequency table built by the counting loop: the keys are the
distinct terms in first-encounter order, each carrying its multiplicity
in the term list. -/
theorem countOcc_eq (terms : List Term) :
    countOcc terms = (firstOccs terms).map (fun t => (t, terms.count t)) := by
  induction terms using List.reverseRecOn with
  | nil => rfl
  | append_singleton s t ih =>
    rw [countOcc_concat, ih, firstOccs_concat]
    by_cases hm : t ∈ firstOccs s
    · rw [if_pos hm,
        addCount_map_of_mem (firstOccs s) _ t 1 (nodup_firstOccs s) hm]
      apply List.map_congr_left
      intro u hu
      by_cases hut : u = t
      · subst hut
        simp [List.count_append]
      · simp [List.count_append, hut, List.count_singleton, Ne.symm hut]
    · rw [if_neg hm, addCount_of_not_mem _ _ _ (by
        rw [List.map_map]
        simpa using hm), List.map_append]
      congr 1
      · apply List.map_congr_left
        intro u hu
        have hut : ¬ u = t := fun e => hm (e ▸ hu)
        have htu : ¬ t = u := fun e => hut e.symm
        simp [List.count_append, List.count_singleton, htu]
      · have hts : t ∉ s := fun h => hm ((mem_firstOccs s t).mpr h)
        simp [List.count_append, List.count_eq_zero.mpr hts]

theorem countOcc_keys (terms : List Term) :
    (countOcc terms).map Prod.fst = firstOccs terms := by
  rw [countOcc_eq, List.map_map]
  rw [show (Prod.fst ∘ fun t : Term => (t, terms.count t)) = id from rfl, List.map_id]

theorem nodup_keys_countOcc (terms : List Term) :
    ((countOcc terms).map Prod.fst).Nodup := by
  rw [countOcc_keys]
  exact nodup_firstOccs terms

theorem mem_countOcc (terms : List Term) (p : Term × Nat)
    (hp : p ∈ countOcc terms) : p.2 = terms.count p.1 ∧ p.1 ∈ terms := by
  rw [countOcc_eq] at hp
  rcases List.mem_map.mp hp with ⟨u, hu, he⟩
  subst he
  exact ⟨rfl, (mem_firstOccs terms u).mp hu⟩

theorem one_le_of_mem_countOcc (terms : List Term) (p : Term × Nat)
    (hp : p ∈ countOcc terms) : 1 ≤ p.2 := by
  obtain ⟨h2, h1⟩ := mem_countOcc terms p hp
  rw [h2]
  exact List.count_pos_iff.mpr h1

/-!  ## Lemmas about the co-occurrence structure -/

theorem lookupCount_bumpInner (tbl : Inner) (b c : Term) :
    lookupCount (bumpInner tbl b) c =
      lookupCount tbl c + if c = b then 1 else 0 := by
  induction tbl with
  | nil =>
    simp only [bumpInner, lookupCount]
    by_cases h : c = b
    · subst h; simp
    · rw [if_neg (Ne.symm h), if_neg h]
  | cons p rest ih =>
    obtain ⟨u, k⟩ := p
    by_cases hu : u = b
    · subst hu
      simp only [bumpInner, if_pos rfl, lookupCount]
      by_cases hc : u = c
      · subst hc; simp
      · rw [if_neg hc, if_neg hc, if_neg (Ne.symm hc)]
        simp
    · simp only [bumpInner, if_neg hu, lookupCount]
      by_cases hc : u = c
      · subst hc
        rw [if_pos rfl, if_pos rfl, if_neg hu]
        simp
      · rw [if_neg hc, if_neg hc, ih]

theorem neighbors_bump1 (g : Cooc) (x y a : Term) :
    neighbors (bump1 g x y) a =
      if a = x then bumpInner (neighbors g x) y else neighbors g a := by
  induction g with
  | nil =>
    by_cases h : a = x
    · subst h
      simp [bump1, neighbors, bumpInner]
    · simp only [bump1, neighbors]
      rw [if_neg (Ne.symm h), if_neg h]
  | cons p rest ih =>
    obtain ⟨u, l⟩ := p
    by_cases hu : u = x
    · subst hu
      by_cases ha : u = a
      · subst ha
        simp [bump1, neighbors]
      · have hau : ¬ a = u := fun e => ha e.symm
        simp only [bump1, if_pos rfl, neighbors, if_neg ha, if_neg hau]
    · simp only [bump1, if_neg hu, neighbors]
      by_cases ha : u = a
      · subst ha
        rw [if_pos rfl, if_neg hu, if_pos rfl]
      · rw [if_neg ha, if_neg ha, ih]

theorem lookupC_bump1 (g : Cooc) (x y a b : Term) :
    lookupC (bump1 g x y) a b =
      lookupC g a b + if a = x ∧ b = y then 1 else 0 := by
  rw [lookupC, lookupC, neighbors_bump1]
  by_cases ha : a = x
  · subst ha
    rw [if_pos rfl, lookupCount_bumpInner]
    by_cases hb : b = y
    · simp [hb]
    · simp [hb]
  · rw [if_neg ha, if_neg (by
      intro hcon
      exact ha hcon.1)]
    simp

theorem lookupC_stepCooc (tl : List Char) (t : Term) (pos : Nat) (g : Cooc)
    (s a b : Term) :
    lookupC (stepCooc tl t pos g s) a b =
      lookupC g a b +
        if subMatch s (coocWindow tl pos) then ind2 t s a b else 0 := by
  rw [stepCooc]
  by_cases h : subMatch s (coocWindow tl pos)
  · rw [if_pos h, if_pos h, lookupC_bump1, lookupC_bump1, ind2, Nat.add_assoc]
  · rw [if_neg h, if_neg h]
    simp

theorem lookupC_posStep (tl : List Char) (t : Term) (rest : List Term)
    (pos : Nat) (a b : Term) :
    ∀ g : Cooc,
      lookupC (posStep tl t rest g pos) a b =
        lookupC g a b +
          (rest.map (fun s =>
            if subMatch s (coocWindow tl pos) then ind2 t s a b else 0)).sum := by
  induction rest with
  | nil => intro g; simp [posStep]
  | cons s ss ih =>
    intro g
    rw [posStep, List.foldl_cons]
    have := ih (stepCooc tl t pos g s)
    rw [posStep] at this
    rw [this, lookupC_stepCooc, List.map_cons, List.sum_cons]
    ring

theorem lookupC_termStep (tl : List Char) (t : Term) (rest : List Term)
    (a b : Term) :
    ∀ g : Cooc,
      lookupC (termStep tl t rest g) a b =
        lookupC g a b +
          ((positions tl t).map (fun pos =>
            (rest.map (fun s =>
              if subMatch s (coocWindow tl pos) then ind2 t s a b else 0)).sum)).sum := by
  have aux : ∀ (ps : List Nat) (g : Cooc),
      lookupC (ps.foldl (posStep tl t rest) g) a b =
        lookupC g a b +
          (ps.map (fun pos =>
            (rest.map (fun s =>
              if subMatch s (coocWindow tl pos) then ind2 t s a b else 0)).sum)).sum := by
    intro ps
    induction ps with
    | nil => intro g; simp
    | cons p ps ih =>
      intro g
      rw [List.foldl_cons, ih, lookupC_posStep, List.map_cons, List.sum_cons]
      ring
  intro g
  rw [termStep]
  exact aux (positions tl t) g

theorem lookupC_findCoocAux (tl : List Char) (terms : List Term) (a b : Term) :
    ∀ g : Cooc,
      lookupC (findCoocAux tl terms g) a b =
        lookupC g a b + coocSpecAux tl terms a b := by
  induction terms with
  | nil => intro g; simp [findCoocAux, coocSpecAux]
  | cons t rest ih =>
    intro g
    rw [findCoocAux, ih, lookupC_termStep, coocSpecAux]
    ring

theorem lookupC_empty (a b : Term) : lookupC emptyCooc a b = 0 := rfl

theorem ind2_comm (t s a b : Term) : ind2 t s a b = ind2 t s b a := by
  rw [ind2, ind2, Nat.add_comm]
  congr 1
  · exact if_congr and_comm rfl rfl
  · exact if_congr and_comm rfl rfl

theorem coocSpecAux_comm (tl : List Char) (terms : List Term) (a b : Term) :
    coocSpecAux tl terms a b = coocSpecAux tl terms b a := by
  induction terms with
  | nil => rfl
  | cons t rest ih =>
    rw [coocSpecAux, coocSpecAux, ih]
    congr 1
    apply congrArg
    apply List.map_congr_left
    intro pos _
    apply congrArg
    apply List.map_congr_left
    intro s _
    by_cases h : subMatch s (coocWindow tl pos)
    · rw [if_pos h, if_pos h, ind2_comm]
    · rw [if_neg h, if_neg h]

/-!  ## Lemmas about rounding and the importance score -/

theorem roundHalfEven_le (q : ℚ) : (roundHalfEven q : ℚ) ≤ q + 1 / 2 := by
  have h1 : (⌊q⌋ : ℚ) ≤ q := Int.floor_le q
  rw [roundHalfEven]
  split_ifs with hlt hgt hev
  · push_cast
    linarith
  · push_cast
    linarith
  · push_cast
    rw [not_lt] at hlt
    linarith
  · push_cast
    rw [not_lt] at hlt
    linarith

theorem le_roundHalfEven (q : ℚ) : q - 1 / 2 ≤ (roundHalfEven q : ℚ) := by
  have h2 : q < ⌊q⌋ + 1 := Int.lt_floor_add_one q
  rw [roundHalfEven]
  split_ifs with hlt hgt hev
  · push_cast
    linarith
  · push_cast
    linarith
  · push_cast
    rw [not_lt] at hgt
    linarith
  · push_cast
    rw [not_lt] at hgt
    linarith

theorem importanceSpec_expand (f : ℕ) :
    importanceSpec f = (f : ℚ) + 1 - 1 / ((f : ℚ) + 1) := by
  have hf : ((f : ℚ) + 1) ≠ 0 := by positivity
  rw [importanceSpec]
  field_simp
  ring

theorem importanceSpec_gap {m n : ℕ} (h : m < n) :
    importanceSpec m + 1 ≤ importanceSpec n := by
  have hmn : (m : ℚ) + 1 ≤ (n : ℚ) := by exact_mod_cast Nat.succ_le_of_lt h
  have hm1 : (0 : ℚ) < (m : ℚ) + 1 := by positivity
  have hle : (m : ℚ) + 1 ≤ (n : ℚ) + 1 := by linarith
  have hr : 1 / ((n : ℚ) + 1) ≤ 1 / ((m : ℚ) + 1) :=
    one_div_le_one_div_of_le hm1 hle
  rw [importanceSpec_expand, importanceSpec_expand]
  linarith

theorem roundHalfEven_natFrac (num den : ℕ) (hden : 0 < den) :
    roundHalfEven ((num : ℚ) / den) =
      ((if 2 * (num % den) < den then num / den
        else if den < 2 * (num % den) then num / den + 1
        else if (num / den) % 2 = 0 then num / den else num / den + 1 : ℕ) : ℤ) := by
  have hdQ : (0 : ℚ) < (den : ℚ) := by exact_mod_cast hden
  have hmod : num % den < den := Nat.mod_lt _ hden
  have hnum : den * (num / den) + num % den = num := Nat.div_add_mod num den
  have hfrac : (num : ℚ) / den = ((num / den : ℕ) : ℚ) + ((num % den : ℕ) : ℚ) / den := by
    rw [show ((num : ℕ) : ℚ) = ((den * (num / den) + num % den : ℕ) : ℚ) by rw [hnum]]
    rw [Nat.cast_add, Nat.cast_mul]
    field_simp
    ring
  have h0 : (0 : ℚ) ≤ ((num % den : ℕ) : ℚ) / den := by positivity
  have h1 : ((num % den : ℕ) : ℚ) / den < 1 := by
    rw [div_lt_one hdQ]
    exact_mod_cast hmod
  have hfloor : ⌊(num : ℚ) / den⌋ = ((num / den : ℕ) : ℤ) := by
    apply Int.floor_eq_iff.mpr
    constructor
    · rw [hfrac, Int.cast_natCast]
      linarith
    · rw [hfrac, Int.cast_natCast]
      push_cast
      linarith
  have hsub : (num : ℚ) / den - (⌊(num : ℚ) / den⌋ : ℚ) = ((num % den : ℕ) : ℚ) / den := by
    rw [hfloor, Int.cast_natCast, hfrac]
    ring
  have hiff1 : ((num : ℚ) / den - (⌊(num : ℚ) / den⌋ : ℚ) < 1 / 2) ↔ 2 * (num % den) < den := by
    rw [hsub, div_lt_div_iff hdQ (by norm_num : (0 : ℚ) < 2),
      show ((num % den : ℕ) : ℚ) * 2 = ((2 * (num % den) : ℕ) : ℚ) by push_cast; ring,
      show (1 : ℚ) * (den : ℚ) = ((den : ℕ) : ℚ) by push_cast; ring]
    exact Nat.cast_lt
  have hiff2 : (1 / 2 < (num : ℚ) / den - (⌊(num : ℚ) / den⌋ : ℚ)) ↔ den < 2 * (num % den) := by
    rw [hsub, div_lt_div_iff (by norm_num : (0 : ℚ) < 2) hdQ,
      show ((num % den : ℕ) : ℚ) * 2 = ((2 * (num % den) : ℕ) : ℚ) by push_cast; ring,
      show (1 : ℚ) * (den : ℚ) = ((den : ℕ) : ℚ) by push_cast; ring]
    exact Nat.cast_lt
  have hiff3 : (⌊(num : ℚ) / den⌋ % 2 = 0) ↔ (num / den) % 2 = 0 := by
    rw [hfloor]
    omega
  rw [roundHalfEven]
  simp only [hiff1, hiff2, hiff3]
  split_ifs <;> rw [hfloor] <;> push_cast <;> ring

theorem importanceR_eq (f : ℕ) : importanceR f = roundTo2 (importanceSpec f) := by
  have hform : importanceSpec f * 100 =
      ((100 * f * (f + 2) : ℕ) : ℚ) / ((f + 1 : ℕ) : ℚ) := by
    have hf : ((f : ℚ) + 1) ≠ 0 := by positivity
    rw [importanceSpec]
    push_cast
    field_simp
    ring
  have hunfold : rhe100 f =
      (if 2 * ((100 * f * (f + 2)) % (f + 1)) < f + 1 then (100 * f * (f + 2)) / (f + 1)
       else if f + 1 < 2 * ((100 * f * (f + 2)) % (f + 1)) then (100 * f * (f + 2)) / (f + 1) + 1
       else if ((100 * f * (f + 2)) / (f + 1)) % 2 = 0 then (100 * f * (f + 2)) / (f + 1)
       else (100 * f * (f + 2)) / (f + 1) + 1) := rfl
  rw [roundTo2, hform, roundHalfEven_natFrac _ _ (Nat.succ_pos f),
    importanceR, Rat.mkRat_eq_divInt, Rat.divInt_eq_div, hunfold]
  push_cast
  split_ifs <;> push_cast <;> ring

theorem importanceR_strictMono {m n : ℕ} (h : m < n) :
    importanceR m < importanceR n := by
  rw [importanceR_eq, importanceR_eq, roundTo2, roundTo2]
  have hgap := importanceSpec_gap h
  have b1 := roundHalfEven_le (importanceSpec m * 100)
  have b2 := le_roundHalfEven (importanceSpec n * 100)
  have hlt : (roundHalfEven (importanceSpec m * 100) : ℚ) <
      (roundHalfEven (importanceSpec n * 100) : ℚ) := by linarith
  have h100 : (0 : ℚ) < 100 := by norm_num
  exact (div_lt_div_right h100).mpr hlt

/-!  ## Lemmas about the cluster builder -/

theorem clusterStep_preserves (freqs : FreqTable)
    (st : List ClusterRecord × List Term) (th : ThemeRecord)
    (h : ClusterInv freqs st) : ClusterInv freqs (clusterStep freqs st th) := by
  obtain ⟨hnd, hmem, hok⟩ := h
  rw [clusterStep]
  by_cases h1 : th.term ∈ st.2
  · rw [if_pos h1]
    exact ⟨hnd, hmem, hok⟩
  · rw [if_neg h1]
    by_cases h2 : th.related_terms ≠ []
    · rw [if_pos h2]
      by_cases h3 : 0 < ((th.related_terms.take 3).map Prod.fst).length
      · rw [if_pos h3]
        refine ⟨?_, ?_, ?_⟩
        · rw [List.map_append]
          refine List.Nodup.append hnd (List.nodup_singleton _) ?_
          intro a ha hb
          rw [List.map_singleton, List.mem_singleton] at hb
          subst hb
          rcases List.mem_map.mp ha with ⟨c, hc, he⟩
          have hce : c.central_term = th.term := he
          exact h1 (hce ▸ hmem c hc)
        · intro c hc
          rcases List.mem_append.mp hc with hc' | hc'
          · exact List.mem_cons.mpr (Or.inr (hmem c hc'))
          · rw [List.mem_singleton] at hc'
            subst hc'
            exact List.mem_cons.mpr (Or.inl rfl)
        · intro c hc
          rcases List.mem_append.mp hc with hc' | hc'
          · exact hok c hc'
          · rw [List.mem_singleton] at hc'
            subst hc'
            refine ⟨?_, rfl, rfl⟩
            rw [List.length_map]
            exact List.length_take_le 3 _
      · rw [if_neg h3]
        exact ⟨hnd, hmem, hok⟩
    · rw [if_neg h2]
      exact ⟨hnd, hmem, hok⟩

theorem foldl_preserves {α σ : Type} (P : σ → Prop) (f : σ → α → σ)
    (hf : ∀ s a, P s → P (f s a)) :
    ∀ (l : List α) (s : σ), P s → P (l.foldl f s) := by
  intro l
  induction l with
  | nil => intro s h; exact h
  | cons a as ih =>
    intro s h
    rw [List.foldl_cons]
    exact ih _ (hf s a h)

theorem buildClusters_ok (dom : List ThemeRecord) (freqs : FreqTable) :
    ((buildClusters dom freqs).map ClusterRecord.central_term).Nodup ∧
      ∀ c ∈ buildClusters dom freqs, ClusterOK freqs c := by
  have h := foldl_preserves (ClusterInv freqs) (clusterStep freqs)
    (fun s a => clusterStep_preserves freqs s a) (dom.take 20) ([], [])
    ⟨List.nodup_nil, by simp, by simp⟩
  rw [buildClusters]
  exact ⟨h.1, h.2.2⟩

/-!  ## Lemmas about the term scanner -/

theorem scanRunsF_tokens :
    ∀ (fuel : Nat) (prev : Option Char) (l : List Char) (w : List Char),
      w ∈ scanRunsF fuel prev l → ∀ c ∈ w, isTokenChar c = true := by
  intro fuel
  induction fuel with
  | zero =>
    intro prev l w hw
    cases l with
    | nil => simp [scanRunsF] at hw
    | cons c rest => simp [scanRunsF] at hw
  | succ fuel ih =>
    intro prev l w hw
    cases l with
    | nil => simp [scanRunsF] at hw
    | cons c rest =>
      rw [scanRunsF] at hw
      by_cases hc : isTokenChar c
      · rw [if_pos hc] at hw
        rcases List.mem_append.mp hw with hw' | hw'
        · by_cases hb : leftBd prev && rightBd (rest.dropWhile isTokenChar)
          · rw [if_pos hb, List.mem_singleton] at hw'
            subst hw'
            intro d hd
            rcases List.mem_cons.mp hd with rfl | hd'
            · exact hc
            · exact List.mem_takeWhile_imp hd'
          · rw [if_neg hb] at hw'
            simp at hw'
        · exact ih (some c) _ w hw'
      · rw [if_neg hc] at hw
        exact ih (some c) rest w hw

theorem scanRunsF_sublist :
    ∀ (fuel : Nat) (prev : Option Char) (l : List Char),
      (scanRunsF fuel prev l).Sublist (runsNBF fuel l) := by
  intro fuel
  induction fuel with
  | zero =>
    intro prev l
    cases l with
    | nil => simp [scanRunsF, runsNBF]
    | cons c rest => simp [scanRunsF, runsNBF]
  | succ fuel ih =>
    intro prev l
    cases l with
    | nil => simp [scanRunsF, runsNBF]
    | cons c rest =>
      rw [scanRunsF, runsNBF]
      by_cases hc : isTokenChar c
      · rw [if_pos hc, if_pos hc]
        by_cases hb : leftBd prev && rightBd (rest.dropWhile isTokenChar)
        · rw [if_pos hb]
          exact (ih (some c) _).cons₂ _
        · rw [if_neg hb]
          exact (ih (some c) _).cons _
      · rw [if_neg hc, if_neg hc]
        exact ih (some c) rest

theorem head_dropWhile_false (p : Char → Bool) :
    ∀ (l : List Char) (d : Char) (ds : List Char),
      l.dropWhile p = d :: ds → p d = false := by
  intro l
  induction l with
  | nil => intro d ds h; simp [List.dropWhile] at h
  | cons c rest ih =>
    intro d ds h
    by_cases hc : p c
    · rw [List.dropWhile_cons_of_pos hc] at h
      exact ih d ds h
    · rw [List.dropWhile_cons_of_neg hc] at h
      injection h with h1 h2
      subst h1
      exact Bool.eq_false_iff.mpr hc

theorem scanRunsF_eq_runsNBF :
    ∀ (fuel : Nat) (l : List Char) (prev : Option Char),
      (∀ c ∈ l, isWordB c = true → isTokenChar c = true) →
      (∀ d, l.head? = some d → isTokenChar d = true → leftBd prev = true) →
      scanRunsF fuel prev l = runsNBF fuel l := by
  intro fuel
  induction fuel with
  | zero =>
    intro l prev hw hp
    cases l with
    | nil => rfl
    | cons c rest => rfl
  | succ fuel ih =>
    intro l prev hw hp
    cases l with
    | nil => rfl
    | cons c rest =>
      rw [scanRunsF, runsNBF]
      by_cases hc : isTokenChar c
      · rw [if_pos hc, if_pos hc]
        have hlb : leftBd prev = true := hp c rfl hc
        have hrb : rightBd (rest.dropWhile isTokenChar) = true := by
          cases hd : rest.dropWhile isTokenChar with
          | nil => rfl
          | cons d ds =>
            have hdt : isTokenChar d = false := head_dropWhile_false isTokenChar rest d ds hd
            have hdl : d ∈ rest := by
              have hmem2 : d ∈ rest.dropWhile isTokenChar := by
                rw [hd]
                exact List.mem_cons_self d ds
              exact (List.dropWhile_sublist isTokenChar).mem hmem2
            have hnw : isWordB d = false := by
              cases hwd : isWordB d with
              | false => rfl
              | true =>
                rw [hw d (List.mem_cons.mpr (Or.inr hdl)) hwd] at hdt
                simp at hdt
            simp [rightBd, hnw]
        rw [hlb, hrb]
        simp only [Bool.and_self, if_pos]
        rw [ih (rest.dropWhile isTokenChar) (some c)
          (fun d hd hwd => hw d (List.mem_cons.mpr
            (Or.inr ((List.dropWhile_sublist isTokenChar).mem hd))) hwd)
          (fun d hd hdt => by
            cases hdw : rest.dropWhile isTokenChar with
            | nil => rw [hdw] at hd; simp at hd
            | cons e es =>
              rw [hdw] at hd
              simp only [List.head?_cons, Option.some.injEq] at hd
              rw [← hd] at hdt
              rw [head_dropWhile_false isTokenChar rest e es hdw] at hdt
              simp at hdt)]
        simp
      · rw [if_neg hc, if_neg hc]
        have hcnw : isWordB c = false := by
          cases hwc : isWordB c with
          | false => rfl
          | true =>
            rw [hw c (List.mem_cons.mpr (Or.inl rfl)) hwc] at hc
            simp at hc
        exact ih rest (some c)
          (fun d hd hwd => hw d (List.mem_cons.mpr (Or.inr hd)) hwd)
          (fun d hd hdt => by rw [leftBd, hcnw]; rfl)

/-!  ## Lemmas about the batch aggregation -/

theorem lookupCount_theme_foldl (ths : List ThemeRecord) :
    ∀ (acc : FreqTable) (t : Term),
      lookupCount (ths.foldl (fun acc th => addCount acc th.term th.frequency) acc) t =
        lookupCount acc t +
          (ths.map (fun th => if t = th.term then th.frequency else 0)).sum := by
  induction ths with
  | nil => intro acc t; simp
  | cons th ths ih =>
    intro acc t
    rw [List.foldl_cons, ih, lookupCount_addCount, List.map_cons, List.sum_cons]
    ring

theorem lookupCount_combined_foldl (docs : List (List Char × List Char)) :
    ∀ (acc : FreqTable) (t : Term),
      lookupCount (docs.foldl
        (fun acc d => ((analyzeText d.2 d.1).dominant_themes).foldl
          (fun acc th => addCount acc th.term th.frequency) acc) acc) t =
        lookupCount acc t +
          (docs.map (fun d => (((analyzeText d.2 d.1).dominant_themes).map
            (fun th => if t = th.term then th.frequency else 0)).sum)).sum := by
  induction docs with
  | nil => intro acc t; simp
  | cons d ds ih =>
    intro acc t
    rw [List.foldl_cons, ih, lookupCount_theme_foldl, List.map_cons, List.sum_cons]
    ring

/-!  ## The claims -/

set_option maxRecDepth 100000

/-- Claim C1: The co-occurrence graph built by `find_cooccurrences` is
symmetric: starting from the empty mapping, for every pair of terms the
count stored under `(a, b)` equals the count stored under `(b, a)` (an
absent entry reads as 0), because every increment of one direction is
immediately mirrored in the other. -/
theorem cooccurrence_graph_symmetric (text : List Char) (terms : List Term)
    (a b : Term) :
    lookupC (findCooccurrences text terms emptyCooc) a b =
      lookupC (findCooccurrences text terms emptyCooc) b a := by
  rw [findCooccurrences, lookupC_findCoocAux, lookupC_findCoocAux,
    lookupC_empty, lookupC_empty, coocSpecAux_comm]

/-- Claim C2, counterexample: The claim counts one increment event for
every occurrence of **each** significant term with **any other**
significant term inside its window.  On the text `"xyz abc"` with
significant terms `["xyz", "abc"]` this event count is 2 (each term sees
the other), but the code scans only the pairs `(terms[i], terms[j])` with
`i < j`, so `find_cooccurrences` stores 1. -/
theorem cooccurrence_claim_counterexample :
    lookupC (findCooccurrences ("xyz abc".toList) ["xyz".toList, "abc".toList]
        emptyCooc) ("xyz".toList) ("abc".toList) = 1 ∧
    coocClaimCount ("xyz abc".toList) ["xyz".toList, "abc".toList]
        ("xyz".toList) ("abc".toList) = 2 ∧
    lookupC (findCooccurrences ("xyz abc".toList) ["xyz".toList, "abc".toList]
        emptyCooc) ("xyz".toList) ("abc".toList) ≠
      coocClaimCount ("xyz abc".toList) ["xyz".toList, "abc".toList]
        ("xyz".toList) ("abc".toList) :=
  ⟨by decide, by decide, by decide⟩

/-- Claim C2, amended: For every whole-word, case-insensitive occurrence
position `pos` of each significant term `t`, `find_cooccurrences` examines
the window `text_lower[pos-100 : pos+100]` and, for every significant
term **listed after `t`** whose text appears as a literal substring (not
whole-word) inside that window, increments the pairwise count in both
directions; repeated occurrences of the same pair accumulate multiple
increments with no deduplication across windows. -/
theorem cooccurrence_counts_match_later_scan (text : List Char)
    (terms : List Term) (g : Cooc) (a b : Term) :
    lookupC (findCooccurrences text terms g) a b =
      lookupC g a b + coocSpecLater text terms a b := by
  rw [findCooccurrences, coocSpecLater]
  exact lookupC_findCoocAux (lowerL text) terms a b g

/-- Claim C3, counterexample: On the text `"abc1"` there are no matches of
`\b[a-z...]+\b` (the digit `1` is a word character, so the run `abc` has
no right word boundary), while the claim's reading — every maximal run of
alphabet letters, length ≥ 3, not a stop word — returns `["abc"]`. -/
theorem extract_terms_claim_counterexample :
    extractTerms ("abc1".toList) = [] ∧
    extractTermsClaimed ("abc1".toList) = ["abc".toList] ∧
    extractTerms ("abc1".toList) ≠ extractTermsClaimed ("abc1".toList) :=
  ⟨by decide, by decide, by decide⟩

/-- Claim C3, amended: `extract_terms` lowercases the input and returns,
in document order, those maximal runs of alphabet letters that are not
adjacent to another word character (digit, underscore, or a letter
outside the alphabet), of length at least 3 and not in the stop-word set;
every returned term is an alphabetic token of length ≥ 3 not in the
stop-word set, the returned list is a subsequence of the full list of
maximal runs, and on texts in which every word character belongs to the
term alphabet it coincides with the claim's reading. -/
theorem extract_terms_amended :
    (∀ (text : List Char) (w : Term), w ∈ extractTerms text →
      3 ≤ w.length ∧ stopWordsL.contains w = false ∧
        ∀ c ∈ w, isTokenChar c = true) ∧
    (∀ text : List Char, (extractTerms text).Sublist (extractTermsClaimed text)) ∧
    (∀ text : List Char,
      (∀ c ∈ lowerL text, isWordB c = true → isTokenChar c = true) →
      extractTerms text = extractTermsClaimed text) := by
  refine ⟨?_, ?_, ?_⟩
  · intro text w hw
    rw [extractTerms] at hw
    have hf := List.mem_filter.mp hw
    have hk := hf.2
    rw [keepTerm] at hk
    simp only [Bool.and_eq_true, Bool.not_eq_true', decide_eq_true_eq] at hk
    refine ⟨hk.2, hk.1, ?_⟩
    have hs : w ∈ scanRunsF (lowerL text).length none (lowerL text) := hf.1
    exact scanRunsF_tokens _ none _ w hs
  · intro text
    rw [extractTerms, extractTermsClaimed]
    apply List.Sublist.filter
    rw [scanRuns, runsNB]
    exact scanRunsF_sublist _ none _
  · intro text h
    rw [extractTerms, extractTermsClaimed, scanRuns, runsNB,
      scanRunsF_eq_runsNBF _ _ none h (fun d hd ht => rfl)]

/-- Claim C3, witness: On `"The cat ran fast"` the amended theorem applies:
`"cat"` is extracted and is an alphabetic non-stop-word token of length 3,
and since every word character of the text is an alphabet letter the
extractor agrees with the claim's reading there. -/
theorem extract_terms_amended_witness :
    (3 ≤ ("cat".toList).length ∧ stopWordsL.contains ("cat".toList) = false ∧
      ∀ c ∈ ("cat".toList), isTokenChar c = true) ∧
    extractTerms ("The cat ran fast".toList) =
      extractTermsClaimed ("The cat ran fast".toList) :=
  ⟨extract_terms_amended.1 ("The cat ran fast".toList) ("cat".toList) (by decide),
   extract_terms_amended.2.2 ("The cat ran fast".toList) (by decide)⟩

/-- Claim C4: The stored importance score is `round(f * (1 + 1/(1+f)), 2)`
(proved against the specification formula with field operations); it is
strictly increasing over positive frequencies, hence the stable
descending sort by importance never places a lower-frequency term above a
higher-frequency one (the `dominant` list is pairwise descending in
frequency); ties keep the original frequency order (the sort preserves
the relative order of records with equal importance); and
`dominant_themes` is the first 5 entries of the ranked list. -/
theorem importance_ranking :
    (∀ m n : ℕ, 0 < m → m < n → importanceR m < importanceR n) ∧
    (∀ f : ℕ, importanceR f = roundTo2 (importanceSpec f)) ∧
    (∀ (freqs : FreqTable) (ctx : Term → List (List Char)) (cooc : Cooc),
      (dominantList freqs ctx cooc).Pairwise
        (fun x y => y.frequency ≤ x.frequency)) ∧
    (∀ (freqs : FreqTable) (ctx : Term → List (List Char)) (cooc : Cooc) (c : ℚ),
      (dominantList freqs ctx cooc).filter (fun r => decide (r.importance = c)) =
        ((mostCommon freqs 30).map (mkThemeRecord cooc ctx)).filter
          (fun r => decide (r.importance = c))) ∧
    (∀ (freqs : FreqTable) (ctx : Term → List (List Char)) (cooc : Cooc)
        (fname : List Char),
      (generateInsights freqs ctx cooc fname).dominant_themes =
        (dominantList freqs ctx cooc).take 5) := by
  refine ⟨?_, importanceR_eq, ?_, ?_, ?_⟩
  · intro m n _ h
    exact importanceR_strictMono h
  · intro freqs ctx cooc
    have hp := pairwise_sortKeyDesc (fun r : ThemeRecord => r.importance)
      ((mostCommon freqs 30).map (mkThemeRecord cooc ctx))
    rw [dominantList]
    refine List.Pairwise.imp_of_mem ?_ hp
    intro x y hx hy hxy
    have hxi : x.importance = importanceR x.frequency := by
      rcases List.mem_map.mp ((mem_sortKeyDesc _ _ _).mp hx) with ⟨p, _, he⟩
      rw [← he]
      rfl
    have hyi : y.importance = importanceR y.frequency := by
      rcases List.mem_map.mp ((mem_sortKeyDesc _ _ _).mp hy) with ⟨p, _, he⟩
      rw [← he]
      rfl
    by_contra hlt
    push_neg at hlt
    have hmono := importanceR_strictMono hlt
    rw [← hxi, ← hyi] at hmono
    exact absurd hxy (not_le.mpr hmono)
  · intro freqs ctx cooc c
    rw [dominantList]
    exact filter_sortKeyDesc _ c _
  · intro freqs ctx cooc fname
    rfl

/-- Claim C4, witness: The monotonicity part applied at frequencies 3 < 7. -/
theorem importance_ranking_witness :
    0 < 3 ∧ 3 < 7 ∧ importanceR 3 < importanceR 7 :=
  ⟨by decide, by decide, importance_ranking.1 3 7 (by decide) (by decide)⟩

/-- Claim C5: In the `concept_clusters` output at most 5 clusters are
emitted, no term is the central term of more than one cluster, and every
cluster has at most 3 related terms, `cohesion = |related| + 1` and
`total_mentions` equal to the central term's stored frequency plus the
sum of the related terms' stored frequencies; meanwhile the same term can
appear in the `related_terms` lists of several clusters (exhibited on a
concrete input where `c` is related to two distinct clusters). -/
theorem concept_cluster_invariants :
    (∀ (freqs : FreqTable) (ctx : Term → List (List Char)) (cooc : Cooc)
        (fname : List Char),
      ((generateInsights freqs ctx cooc fname).concept_clusters).length ≤ 5 ∧
      (((generateInsights freqs ctx cooc fname).concept_clusters).map
        ClusterRecord.central_term).Nodup ∧
      (∀ c ∈ (generateInsights freqs ctx cooc fname).concept_clusters,
        c.related_terms.length ≤ 3 ∧
        c.cohesion = c.related_terms.length + 1 ∧
        c.total_mentions = lookupCount freqs c.central_term +
          (c.related_terms.map (lookupCount freqs)).sum)) ∧
    2 ≤ (((generateInsights [(['a'], 10), (['b'], 9), (['c'], 8)] (fun _ => [])
        [(['a'], [(['c'], 5)]), (['b'], [(['c'], 4)]), (['c'], [(['a'], 5), (['b'], 4)])]
        []).concept_clusters).filter
          (fun cl => decide (['c'] ∈ cl.related_terms))).length := by
  constructor
  · intro freqs ctx cooc fname
    have h := buildClusters_ok (dominantList freqs ctx cooc) freqs
    refine ⟨?_, ?_, ?_⟩
    · show ((buildClusters (dominantList freqs ctx cooc) freqs).take 5).length ≤ 5
      exact List.length_take_le 5 _
    · show (((buildClusters (dominantList freqs ctx cooc) freqs).take 5).map
        ClusterRecord.central_term).Nodup
      exact List.Nodup.sublist ((List.take_sublist 5 _).map _) h.1
    · intro c hc
      have hc' : c ∈ buildClusters (dominantList freqs ctx cooc) freqs :=
        (List.take_sublist 5 _).subset hc
      exact h.2 c hc'
  · decide

/-- Claim C5, witness: The cluster invariants applied to the first cluster
of the concrete input of the possibility part. -/
theorem concept_cluster_invariants_witness :
    (({ central_term := ['a'], related_terms := [['c']], cohesion := 2,
        total_mentions := 18 } : ClusterRecord) ∈
      (generateInsights [(['a'], 10), (['b'], 9), (['c'], 8)] (fun _ => [])
        [(['a'], [(['c'], 5)]), (['b'], [(['c'], 4)]), (['c'], [(['a'], 5), (['b'], 4)])]
        []).concept_clusters) ∧
    (([['c']] : List Term).length ≤ 3 ∧
      (2 : Nat) = ([['c']] : List Term).length + 1 ∧
      (18 : Nat) = lookupCount [(['a'], 10), (['b'], 9), (['c'], 8)] ['a'] +
        (([['c']] : List Term).map
          (lookupCount [(['a'], 10), (['b'], 9), (['c'], 8)])).sum) :=
  ⟨by decide,
   (concept_cluster_invariants.1 [(['a'], 10), (['b'], 9), (['c'], 8)] (fun _ => [])
      [(['a'], [(['c'], 5)]), (['b'], [(['c'], 4)]), (['c'], [(['a'], 5), (['b'], 4)])]
      []).2.2
     ({ central_term := ['a'], related_terms := [['c']], cohesion := 2,
        total_mentions := 18 } : ClusterRecord)
     (by decide)⟩

/-- Claim C6: Analyzing empty text is not an error: the pure analysis core
is total and on empty content produces a well-formed result whose theme
lists, clusters and gap examples are empty and whose counts are all 0. -/
theorem empty_text_analysis :
    analyzeText [] [] =
      { source_file := []
        dominant_themes := []
        emerging_themes := []
        concept_clusters := []
        potential_gaps := { count := 0, examples := [] }
        corpus_statistics := { unique_terms := 0, total_terms := 0 } } := by
  decide

/-- Claim C7: `potential_gaps.count` is the number of distinct terms whose
total frequency is exactly 1, and `potential_gaps.examples` is the first
10 of them in the order the terms were first inserted into the frequency
table (document encounter order). -/
theorem potential_gaps_characterization (terms : List Term)
    (ctx : Term → List (List Char)) (cooc : Cooc) (fname : List Char) :
    (generateInsights (countOcc terms) ctx cooc fname).potential_gaps.count =
      ((firstOccs terms).filter (fun t => terms.count t == 1)).length ∧
    (generateInsights (countOcc terms) ctx cooc fname).potential_gaps.examples =
      ((firstOccs terms).filter (fun t => terms.count t == 1)).take 10 := by
  have key : ((countOcc terms).filter (fun p => p.2 == 1)).map Prod.fst =
      (firstOccs terms).filter (fun t => terms.count t == 1) := by
    rw [countOcc_eq, List.filter_map, List.map_map,
      show (Prod.fst ∘ fun t : Term => (t, terms.count t)) = id from rfl,
      List.map_id]
    rfl
  constructor
  · show (((countOcc terms).filter (fun p => p.2 == 1)).map Prod.fst).length = _
    rw [key]
  · show (((countOcc terms).filter (fun p => p.2 == 1)).map Prod.fst).take 10 = _
    rw [key]

/-- Claim C8: The combined corpus counter of the batch mode sums, for each
term, the per-document frequencies of the dominant themes carrying that
term across all documents (only dominant themes, not the full
vocabulary); the emitted ranking is the first 20 entries of the stable
descending sort of that counter, hence at most 20 entries, pairwise
descending in summed frequency; and two concrete documents whose dominant
themes carry `democracy` with frequencies 5 and 3 yield the combined
entry `(democracy, 8)`. -/
theorem batch_corpus_aggregation :
    (∀ (docs : List (List Char × List Char)) (t : Term),
      lookupCount (combinedCorpusFreqs docs) t =
        (docs.map (fun d => (((analyzeText d.2 d.1).dominant_themes).map
          (fun th => if t = th.term then th.frequency else 0)).sum)).sum) ∧
    (∀ docs : List (List Char × List Char),
      topThemesAcrossCorpus docs =
        (sortKeyDesc (fun p : Term × Nat => p.2) (combinedCorpusFreqs docs)).take 20 ∧
      (topThemesAcrossCorpus docs).length ≤ 20 ∧
      (topThemesAcrossCorpus docs).Pairwise (fun x y => y.2 ≤ x.2)) ∧
    topThemesAcrossCorpus
      [("a.md".toList, "democracy democracy democracy democracy democracy".toList),
       ("b.md".toList, "democracy democracy democracy".toList)] =
      [("democracy".toList, 8)] ∧
    ((analyzeText "democracy democracy democracy democracy democracy".toList
        "a.md".toList).dominant_themes).map (fun th => (th.term, th.frequency)) =
      [("democracy".toList, 5)] ∧
    ((analyzeText "democracy democracy democracy".toList
        "b.md".toList).dominant_themes).map (fun th => (th.term, th.frequency)) =
      [("democracy".toList, 3)] := by
  refine ⟨?_, ?_, by decide, by decide, by decide⟩
  · intro docs t
    rw [combinedCorpusFreqs, lookupCount_combined_foldl]
    rw [show lookupCount [] t = 0 from rfl, Nat.zero_add]
  · intro docs
    refine ⟨rfl, List.length_take_le 20 _, ?_⟩
    exact List.Pairwise.sublist (List.take_sublist 20 _)
      (pairwise_sortKeyDesc (fun p : Term × Nat => p.2) _)

/-- Claim C9: The analysis payload is deterministic: the wall clock (read
by `datetime.now()` and written only into the markdown report) does not
flow into the insights payload, so two runs on the same content with
different clock values produce the same payload, which is a pure function
of the content and file name. -/
theorem analysis_payload_deterministic (content fname now1 now2 : List Char) :
    (runPipeline content fname now1).1 = (runPipeline content fname now2).1 ∧
    (runPipeline content fname now1).1 = analyzeText content fname :=
  ⟨rfl, rfl⟩

/-- Claim C10: Context sampling matches plain substrings, not whole words:
on `"Participation and participations"` the significant term
`participation` has exactly one whole-word occurrence (so frequency 1),
yet `extract_contexts` captures two snippets — the second at the position
where `participation` occurs only embedded inside `participations`. -/
theorem context_sampling_not_whole_word :
    extractTerms ("Participation and participations".toList) =
      ["participation".toList, "participations".toList] ∧
    positions (lowerL ("Participation and participations".toList))
      ("participation".toList) = [0] ∧
    (extractContexts ("Participation and participations".toList)
      ("participation".toList)).length = 2 ∧
    "participation".toList ∈
      significantOf (countOcc (extractTerms
        ("Participation and participations".toList))) :=
  ⟨by decide, by decide, by decide, by decide⟩

end ThemeAnalyzer
